import Mathlib

set_option maxHeartbeats 1000000

namespace InternSymbols

/-- Modelled from the spec: the symbol classes of §3 (the file
`generate/rules.rs` that declares `SymbolType` is not part of the sources;
only the constructors `non_terminal` and `external` are used by the pass). -/
inductive SymbolType where
  | External
  | End
  | Terminal
  | NonTerminal
  | Anonymous
  deriving DecidableEq, Repr

/-- Modelled from the spec: a `Symbol` is an (index, class) pair with
structural equality (`generate/rules.rs` is not part of the sources). -/
structure Symbol where
  kind : SymbolType
  index : Nat
  deriving DecidableEq, Repr

/-- `Symbol::non_terminal(i)` from `generate/rules.rs`, modelled from the
spec: a resolved reference to `variables[i]`. -/
def Symbol.non_terminal (i : Nat) : Symbol :=
  { kind := SymbolType.NonTerminal, index := i }

/-- `Symbol::external(i)` from `generate/rules.rs`, modelled from the spec:
a resolved reference to `external_tokens[i]`. -/
def Symbol.external (i : Nat) : Symbol :=
  { kind := SymbolType.External, index := i }

/-- Modelled from the spec: the `params` payload of a `Metadata` rule is
"opaque associated data" that the pass copies unchanged; it is modelled as
an opaque wrapper around a number. -/
structure MetadataParams where
  value : Nat
  deriving DecidableEq, Repr

/-- Modelled from the spec §3: the recursive `Rule` sum type
(`generate/rules.rs` is not part of the sources). `Str`, `Pattern` and
`Blank` are the closed set of name-free leaf kinds. -/
inductive Rule where
  | Blank : Rule
  | Str : String → Rule
  | Pattern : String → Rule
  | NamedSymbol : String → Rule
  | Symbol : Symbol → Rule
  | Choice : List Rule → Rule
  | Seq : List Rule → Rule
  | Repeat : Rule → Rule
  | Metadata : MetadataParams → Rule → Rule

/-- Modelled from the spec §3: variable kinds; `kind` is derived from the
name by the hidden-prefix rule (`generate/grammars.rs` is not part of the
sources). -/
inductive VariableType where
  | Hidden
  | Named
  | Anonymous
  deriving DecidableEq, Repr

/-- Modelled from the spec §3: a named grammar variable together with its
rule (`generate/grammars.rs` is not part of the sources). -/
structure Variable where
  name : String
  kind : VariableType
  rule : Rule

/-- Modelled from the spec §3 and the test helper `build_grammar`: the
input grammar consumed by the pass (`generate/grammars.rs` is not part of
the sources). -/
structure InputGrammar where
  name : String
  «variables» : List Variable
  extra_tokens : List Rule
  external_tokens : List Rule
  expected_conflicts : List (List String)
  variables_to_inline : List String
  supertype_symbols : List String
  word_token : Option String

/-- Modelled from the spec §3: the interned grammar produced by the pass
(`prepare_grammar/mod.rs` is not part of the sources). -/
structure InternedGrammar where
  «variables» : List Variable
  external_tokens : List Variable
  extra_tokens : List Rule
  expected_conflicts : List (List Symbol)
  variables_to_inline : List Symbol
  supertype_symbols : List Symbol
  word_token : Option Symbol

/-- Modelled from `crate::error::Error` (not part of the sources): a
message-carrying error value, as exercised by the test
`test_grammar_with_undefined_symbols`. -/
structure Error where
  message : String
  deriving DecidableEq, Repr

/-- `Error::undefined_symbol`, with the exact message shape asserted by the
test `test_grammar_with_undefined_symbols`. -/
def Error.undefined_symbol (name : String) : Error :=
  { message := "Undefined symbol `" ++ name ++ "`" }

/-- The first loop of `Interner::intern_name` (lines 129-133): scan
`variables` with a running index, returning `Symbol::non_terminal(i)` at
the first name match. -/
def find_variable (symbol : String) : List Variable → Nat → Option Symbol
  | [], _ => none
  | v :: rest, i =>
    if v.name = symbol then some (Symbol.non_terminal i)
    else find_variable symbol rest (i + 1)

/-- The second loop of `Interner::intern_name` (lines 135-141): scan
`external_tokens` with a running index, returning `Symbol::external(i)` at
the first entry that is `NamedSymbol` with a matching name. -/
def find_external (symbol : String) : List Rule → Nat → Option Symbol
  | [], _ => none
  | Rule.NamedSymbol name :: rest, i =>
    if name = symbol then some (Symbol.external i)
    else find_external symbol rest (i + 1)
  | _ :: rest, i => find_external symbol rest (i + 1)

/-- `Interner::intern_name` (lines 128-144): variables are searched first,
external tokens second. The `Interner` struct is just a borrow of the input
grammar, so it is passed directly. -/
def intern_name (grammar : InputGrammar) (symbol : String) : Option Symbol :=
  match find_variable symbol grammar.variables 0 with
  | some s => some s
  | none => find_external symbol grammar.external_tokens 0

/-- `variable_type_for_name` (lines 147-153). `name.starts_with("_")` for
the one-character pattern `"_"` holds exactly when the first character of
`name` is an underscore. -/
def variable_type_for_name (name : String) : VariableType :=
  if name.data.head? = some '_' then VariableType.Hidden else VariableType.Named

mutual

/-- `Interner::intern_rule` (lines 94-126): rewrite a rule tree, replacing
each `NamedSymbol` with its resolved `Symbol` and failing with
`Error::undefined_symbol` at the first unresolvable name. -/
def intern_rule (grammar : InputGrammar) : Rule → Except Error Rule
  | Rule.Choice elements =>
    match intern_rule_list grammar elements with
    | Except.ok result => Except.ok (Rule.Choice result)
    | Except.error e => Except.error e
  | Rule.Seq elements =>
    match intern_rule_list grammar elements with
    | Except.ok result => Except.ok (Rule.Seq result)
    | Except.error e => Except.error e
  | Rule.Repeat content =>
    match intern_rule grammar content with
    | Except.ok result => Except.ok (Rule.Repeat result)
    | Except.error e => Except.error e
  | Rule.Metadata params rule =>
    match intern_rule grammar rule with
    | Except.ok result => Except.ok (Rule.Metadata params result)
    | Except.error e => Except.error e
  | Rule.NamedSymbol name =>
    match intern_name grammar name with
    | some symbol => Except.ok (Rule.Symbol symbol)
    | none => Except.error (Error.undefined_symbol name)
  | rule => Except.ok rule

/-- The element-by-element loop bodies of the `Choice` and `Seq` cases of
`Interner::intern_rule`: rewrite each element in order, failing on the
first element that fails. -/
def intern_rule_list (grammar : InputGrammar) : List Rule → Except Error (List Rule)
  | [] => Except.ok []
  | r :: rest =>
    match intern_rule grammar r with
    | Except.ok r2 =>
      match intern_rule_list grammar rest with
      | Except.ok rest2 => Except.ok (r2 :: rest2)
      | Except.error e => Except.error e
    | Except.error e => Except.error e

end

/-- The variables loop of `intern_symbols` (lines 13-20): intern each
variable's rule, deriving its kind from its name. -/
def intern_variables (grammar : InputGrammar) : List Variable → Except Error (List Variable)
  | [] => Except.ok []
  | v :: rest =>
    match intern_rule grammar v.rule with
    | Except.ok rule =>
      match intern_variables grammar rest with
      | Except.ok rest2 =>
        Except.ok ({ name := v.name, kind := variable_type_for_name v.name, rule := rule } :: rest2)
      | Except.error e => Except.error e
    | Except.error e => Except.error e

/-- The external-tokens loop of `intern_symbols` (lines 22-31): intern each
entry's rule, deriving a name and kind when the raw entry is itself a
`NamedSymbol`, and an anonymous variable otherwise. -/
def intern_external_tokens (grammar : InputGrammar) : List Rule → Except Error (List Variable)
  | [] => Except.ok []
  | t :: rest =>
    match intern_rule grammar t with
    | Except.ok rule =>
      match intern_external_tokens grammar rest with
      | Except.ok rest2 =>
        match t with
        | Rule.NamedSymbol name =>
          Except.ok ({ name := name, kind := variable_type_for_name name, rule := rule } :: rest2)
        | _ =>
          Except.ok ({ name := "", kind := VariableType.Anonymous, rule := rule } :: rest2)
      | Except.error e => Except.error e
    | Except.error e => Except.error e

/-- The supertype-symbols loop of `intern_symbols` (lines 38-45) and the
per-group body of the expected-conflicts loop (lines 49-56): resolve each
name, failing with `Error::undefined_symbol` on the first miss. -/
def intern_names (grammar : InputGrammar) : List String → Except Error (List Symbol)
  | [] => Except.ok []
  | name :: rest =>
    match intern_name grammar name with
    | some s =>
      match intern_names grammar rest with
      | Except.ok rest2 => Except.ok (s :: rest2)
      | Except.error e => Except.error e
    | none => Except.error (Error.undefined_symbol name)

/-- The expected-conflicts loop of `intern_symbols` (lines 47-58): resolve
every name of every group, preserving group order. -/
def intern_conflicts (grammar : InputGrammar) : List (List String) → Except Error (List (List Symbol))
  | [] => Except.ok []
  | c :: rest =>
    match intern_names grammar c with
    | Except.ok c2 =>
      match intern_conflicts grammar rest with
      | Except.ok rest2 => Except.ok (c2 :: rest2)
      | Except.error e => Except.error e
    | Except.error e => Except.error e

/-- The variables-to-inline loop of `intern_symbols` (lines 60-65):
resolve each name, silently dropping the ones that fail to resolve. -/
def intern_inline (grammar : InputGrammar) : List String → List Symbol
  | [] => []
  | name :: rest =>
    match intern_name grammar name with
    | some s => s :: intern_inline grammar rest
    | none => intern_inline grammar rest

/-- The word-token step of `intern_symbols` (lines 67-74): resolve the
optional word token's name, failing on a miss. -/
def intern_word (grammar : InputGrammar) : Option String → Except Error (Option Symbol)
  | none => Except.ok none
  | some name =>
    match intern_name grammar name with
    | some s => Except.ok (some s)
    | none => Except.error (Error.undefined_symbol name)

/-- The interning pipeline of `intern_symbols` after the start-rule check
(lines 13-74 and 78-86), as a fallible computation assembling the
`InternedGrammar`. -/
def intern_symbols_core (grammar : InputGrammar) : Except Error InternedGrammar :=
  match intern_variables grammar grammar.variables with
  | Except.error e => Except.error e
  | Except.ok vars =>
    match intern_external_tokens grammar grammar.external_tokens with
    | Except.error e => Except.error e
    | Except.ok external_tokens =>
      match intern_rule_list grammar grammar.extra_tokens with
      | Except.error e => Except.error e
      | Except.ok extra_tokens =>
        match intern_names grammar grammar.supertype_symbols with
        | Except.error e => Except.error e
        | Except.ok supertype_symbols =>
          match intern_conflicts grammar grammar.expected_conflicts with
          | Except.error e => Except.error e
          | Except.ok expected_conflicts =>
            match intern_word grammar grammar.word_token with
            | Except.error e => Except.error e
            | Except.ok word_token =>
              Except.ok
                { «variables» := vars
                  external_tokens := external_tokens
                  extra_tokens := extra_tokens
                  expected_conflicts := expected_conflicts
                  variables_to_inline := intern_inline grammar grammar.variables_to_inline
                  supertype_symbols := supertype_symbols
                  word_token := word_token }

/-- The possible outcomes of running `intern_symbols`: a Rust panic (from
the unguarded `grammar.variables[0]` index), an `Err`, or an `Ok`. -/
inductive Outcome where
  | panics
  | fails : Error → Outcome
  | ok : InternedGrammar → Outcome

/-- `intern_symbols` (lines 6-87), together with its observable effect: the
second component records the payloads dumped to stderr by the
`eprintln!("supertype_symbols: ...")` at line 76, which is reached exactly
when every fallible step has succeeded. Indexing `grammar.variables[0]` on
an empty vector is a Rust panic, modelled as `Outcome.panics`. -/
def intern_symbols (grammar : InputGrammar) : Outcome × List (List Symbol) :=
  match grammar.variables with
  | [] => (Outcome.panics, [])
  | firstVar :: _ =>
    if variable_type_for_name firstVar.name = VariableType.Hidden then
      (Outcome.fails { message := "A grammar's start rule must be visible." }, [])
    else
      match intern_symbols_core grammar with
      | Except.error e => (Outcome.fails e, [])
      | Except.ok g => (Outcome.ok g, [g.supertype_symbols])

/-- Mutual induction principle for `Rule` and `List Rule`, proved by strong
induction on `sizeOf`. -/
theorem rule_mutual_ind (P : Rule → Prop) (Q : List Rule → Prop)
    (hBlank : P Rule.Blank)
    (hStr : ∀ s, P (Rule.Str s))
    (hPattern : ∀ s, P (Rule.Pattern s))
    (hNamed : ∀ s, P (Rule.NamedSymbol s))
    (hSym : ∀ s, P (Rule.Symbol s))
    (hChoice : ∀ es, Q es → P (Rule.Choice es))
    (hSeq : ∀ es, Q es → P (Rule.Seq es))
    (hRepeat : ∀ r, P r → P (Rule.Repeat r))
    (hMetadata : ∀ p r, P r → P (Rule.Metadata p r))
    (hNil : Q [])
    (hCons : ∀ r rs, P r → Q rs → Q (r :: rs)) :
    (∀ r, P r) ∧ (∀ es, Q es) := by
  have key : ∀ n : Nat,
      (∀ r : Rule, sizeOf r ≤ n → P r) ∧ (∀ es : List Rule, sizeOf es ≤ n → Q es) := by
    intro n
    induction n using Nat.strong_induction_on with
    | _ n ih =>
      constructor
      · intro r hr
        cases r with
        | Blank => exact hBlank
        | Str s => exact hStr s
        | Pattern s => exact hPattern s
        | NamedSymbol s => exact hNamed s
        | Symbol s => exact hSym s
        | Choice es =>
          have h1 : sizeOf es < n := by
            have := Rule.Choice.sizeOf_spec es
            omega
          exact hChoice es ((ih (sizeOf es) h1).2 es le_rfl)
        | Seq es =>
          have h1 : sizeOf es < n := by
            have := Rule.Seq.sizeOf_spec es
            omega
          exact hSeq es ((ih (sizeOf es) h1).2 es le_rfl)
        | Repeat r =>
          have h1 : sizeOf r < n := by
            have := Rule.Repeat.sizeOf_spec r
            omega
          exact hRepeat r ((ih (sizeOf r) h1).1 r le_rfl)
        | Metadata p r =>
          have h1 : sizeOf r < n := by
            have := Rule.Metadata.sizeOf_spec p r
            omega
          exact hMetadata p r ((ih (sizeOf r) h1).1 r le_rfl)
      · intro es hes
        cases es with
        | nil => exact hNil
        | cons r rs =>
          have h1 : sizeOf r < n := by
            have := List.cons.sizeOf_spec r rs
            omega
          have h2 : sizeOf rs < n := by
            have := List.cons.sizeOf_spec r rs
            omega
          exact hCons r rs ((ih (sizeOf r) h1).1 r le_rfl) ((ih (sizeOf rs) h2).2 rs le_rfl)
  exact ⟨fun r => (key (sizeOf r)).1 r le_rfl, fun es => (key (sizeOf es)).2 es le_rfl⟩

mutual

/-- Boolean structural equality on rules, used to build decidable
equality for the nested inductive `Rule`. -/
def Rule.beq : Rule → Rule → Bool
  | Rule.Blank, Rule.Blank => true
  | Rule.Str s, Rule.Str t => s = t
  | Rule.Pattern s, Rule.Pattern t => s = t
  | Rule.NamedSymbol s, Rule.NamedSymbol t => s = t
  | Rule.Symbol s, Rule.Symbol t => s = t
  | Rule.Choice es, Rule.Choice fs => Rule.beqList es fs
  | Rule.Seq es, Rule.Seq fs => Rule.beqList es fs
  | Rule.Repeat r, Rule.Repeat r2 => Rule.beq r r2
  | Rule.Metadata p r, Rule.Metadata q r2 => p = q && Rule.beq r r2
  | _, _ => false

/-- Boolean structural equality on lists of rules. -/
def Rule.beqList : List Rule → List Rule → Bool
  | [], [] => true
  | r :: rs, t :: ts => Rule.beq r t && Rule.beqList rs ts
  | _, _ => false

end

theorem Rule.beq_iff_eq :
    (∀ r t : Rule, Rule.beq r t = true ↔ r = t) ∧
    (∀ rs ts : List Rule, Rule.beqList rs ts = true ↔ rs = ts) := by
  have main := rule_mutual_ind
    (fun r => ∀ t, Rule.beq r t = true ↔ r = t)
    (fun rs => ∀ ts, Rule.beqList rs ts = true ↔ rs = ts)
  apply main
  · intro t; cases t <;> simp [Rule.beq]
  · intro s t; cases t <;> simp [Rule.beq]
  · intro s t; cases t <;> simp [Rule.beq]
  · intro s t; cases t <;> simp [Rule.beq]
  · intro s t; cases t <;> simp [Rule.beq]
  · intro es ih t; cases t <;> simp [Rule.beq]
    exact ih _
  · intro es ih t; cases t <;> simp [Rule.beq]
    exact ih _
  · intro r ih t; cases t <;> simp [Rule.beq]
    exact ih _
  · intro p r ih t; cases t <;> simp [Rule.beq]
    intro
    exact ih _
  · intro ts; cases ts <;> simp [Rule.beqList]
  · intro r rs ihr ihrs ts; cases ts <;> simp [Rule.beqList, ihr, ihrs]

instance : DecidableEq Rule :=
  fun r t => decidable_of_iff (Rule.beq r t = true) (Rule.beq_iff_eq.1 r t)

mutual

/-- The names of all `NamedSymbol` nodes of a rule, in the left-to-right
order in which `Interner::intern_rule` encounters them. -/
def rule_names : Rule → List String
  | Rule.Choice es => rule_names_list es
  | Rule.Seq es => rule_names_list es
  | Rule.Repeat r => rule_names r
  | Rule.Metadata _ r => rule_names r
  | Rule.NamedSymbol n => [n]
  | _ => []

/-- The names of all `NamedSymbol` nodes of a list of rules, in order. -/
def rule_names_list : List Rule → List String
  | [] => []
  | r :: rs => rule_names r ++ rule_names_list rs

end

mutual

/-- The spec's description of rule interning (§4.2), stated as a total
structural map: every node is kept with its shape, order, arity and
payloads, and only `NamedSymbol` nodes are replaced by their resolved
`Symbol` (an unresolvable `NamedSymbol` is kept, a case that never arises
on the success path). -/
def intern_spec (grammar : InputGrammar) : Rule → Rule
  | Rule.Choice es => Rule.Choice (intern_spec_list grammar es)
  | Rule.Seq es => Rule.Seq (intern_spec_list grammar es)
  | Rule.Repeat r => Rule.Repeat (intern_spec grammar r)
  | Rule.Metadata p r => Rule.Metadata p (intern_spec grammar r)
  | Rule.NamedSymbol n =>
    match intern_name grammar n with
    | some s => Rule.Symbol s
    | none => Rule.NamedSymbol n
  | r => r

/-- Elementwise `intern_spec` on a list of rules. -/
def intern_spec_list (grammar : InputGrammar) : List Rule → List Rule
  | [] => []
  | r :: rs => intern_spec grammar r :: intern_spec_list grammar rs

end

/-- The names in hard-fail positions, in the order in which
`intern_symbols` tries to resolve them: variable rules first, then
external-token rules, extra-token rules, supertype names, expected
conflict names, and finally the word token. -/
def variables_names : List Variable → List String
  | [] => []
  | v :: vs => rule_names v.rule ++ variables_names vs

/-- All names `intern_symbols` must resolve (the inline hints, which soft
fail, are deliberately excluded), in processing order. -/
def hard_names (grammar : InputGrammar) : List String :=
  variables_names grammar.variables ++
    (rule_names_list grammar.external_tokens ++
      (rule_names_list grammar.extra_tokens ++
        (grammar.supertype_symbols ++
          (grammar.expected_conflicts.flatten ++
            (match grammar.word_token with
             | some n => [n]
             | none => [])))))

/-- The first name, in processing order, that the resolver cannot
resolve. -/
def first_undefined (grammar : InputGrammar) : Option String :=
  (hard_names grammar).find? (fun n => (intern_name grammar n).isNone)

theorem find?_append {α : Type} (p : α → Bool) :
    ∀ l1 l2 : List α, (l1 ++ l2).find? p =
      (match l1.find? p with
       | some a => some a
       | none => l2.find? p) := by
  intro l1 l2
  induction l1 with
  | nil => simp
  | cons a l ih =>
    by_cases h : p a = true
    · simp [List.find?, h]
    · simp only [Bool.not_eq_true] at h
      simp [List.find?, h, ih]

theorem find_variable_none (n : String) :
    ∀ (vs : List Variable) (i : Nat), (∀ v ∈ vs, v.name ≠ n) →
      find_variable n vs i = none := by
  intro vs
  induction vs with
  | nil => intro i _; rfl
  | cons v rest ih =>
    intro i h
    have hv : v.name ≠ n := h v (List.mem_cons_self v rest)
    simp only [find_variable, hv, if_false]
    exact ih (i + 1) (fun w hw => h w (List.mem_cons_of_mem v hw))

theorem find_variable_first (n : String) :
    ∀ (vs : List Variable) (j i : Nat) (v : Variable),
      vs[j]? = some v → v.name = n →
      (∀ k < j, ∀ w : Variable, vs[k]? = some w → w.name ≠ n) →
      find_variable n vs i = some (Symbol.non_terminal (i + j)) := by
  intro vs
  induction vs with
  | nil => intro j i v hj; simp at hj
  | cons v0 rest ih =>
    intro j i v hj hname hfirst
    cases j with
    | zero =>
      simp only [List.getElem?_cons_zero, Option.some.injEq] at hj
      subst hj
      simp [find_variable, hname]
    | succ j2 =>
      have h0 : v0.name ≠ n := hfirst 0 (Nat.succ_pos j2) v0 (by simp)
      simp only [List.getElem?_cons_succ] at hj
      have hrest : ∀ k < j2, ∀ w : Variable, rest[k]? = some w → w.name ≠ n := by
        intro k hk w hw
        have := hfirst (k + 1) (by omega) w
        simp only [List.getElem?_cons_succ] at this
        exact this hw
      have := ih j2 (i + 1) v hj hname hrest
      simp only [find_variable, h0, if_false]
      rw [this]
      congr 1
      simp [Symbol.non_terminal]
      omega

theorem find_external_none (n : String) :
    ∀ (ts : List Rule) (i : Nat), (∀ t ∈ ts, t ≠ Rule.NamedSymbol n) →
      find_external n ts i = none := by
  intro ts
  induction ts with
  | nil => intro i _; rfl
  | cons t rest ih
    =>
    intro i h
    have ht : t ≠ Rule.NamedSymbol n := h t (List.mem_cons_self t rest)
    have hrest := fun w hw => h w (List.mem_cons_of_mem t hw)
    cases t with
    | NamedSymbol m =>
      have hm : m ≠ n := by
        intro he; exact ht (by rw [he])
      simp only [find_external, hm, if_false]
      exact ih (i + 1) hrest
    | Blank => exact ih (i + 1) hrest
    | Str s => exact ih (i + 1) hrest
    | Pattern s => exact ih (i + 1) hrest
    | Symbol s => exact ih (i + 1) hrest
    | Choice es => exact ih (i + 1) hrest
    | Seq es => exact ih (i + 1) hrest
    | Repeat r => exact ih (i + 1) hrest
    | Metadata p r => exact ih (i + 1) hrest

theorem find_external_first (n : String) :
    ∀ (ts : List Rule) (j i : Nat),
      ts[j]? = some (Rule.NamedSymbol n) →
      (∀ k < j, ts[k]? ≠ some (Rule.NamedSymbol n)) →
      find_external n ts i = some (Symbol.external (i + j)) := by
  intro ts
  induction ts with
  | nil => intro j i hj; simp at hj
  | cons t rest ih =>
    intro j i hj hfirst
    cases j with
    | zero =>
      simp only [List.getElem?_cons_zero, Option.some.injEq] at hj
      subst hj
      simp [find_external]
    | succ j2 =>
      have h0 : t ≠ Rule.NamedSymbol n := by
        have := hfirst 0 (Nat.succ_pos j2)
        simp only [List.getElem?_cons_zero, ne_eq, Option.some.injEq] at this
        intro he; exact this he
      simp only [List.getElem?_cons_succ] at hj
      have hrest : ∀ k < j2, rest[k]? ≠ some (Rule.NamedSymbol n) := by
        intro k hk
        have := hfirst (k + 1) (by omega)
        simpa only [List.getElem?_cons_succ] using this
      have hres := ih j2 (i + 1) hj hrest
      have hstep : find_external n (t :: rest) i = find_external n rest (i + 1) := by
        cases t with
        | NamedSymbol m =>
          have hm : m ≠ n := by
            intro he; exact h0 (by rw [he])
          simp [find_external, hm]
        | Blank => rfl
        | Str s => rfl
        | Pattern s => rfl
        | Symbol s => rfl
        | Choice es => rfl
        | Seq es => rfl
        | Repeat r => rfl
        | Metadata p r => rfl
      rw [hstep, hres]
      congr 1
      simp [Symbol.external]
      omega

theorem intern_name_first_var (g : InputGrammar) (n : String) (j : Nat) (v : Variable)
    (hj : g.variables[j]? = some v) (hname : v.name = n)
    (hfirst : ∀ k < j, ∀ w : Variable, g.variables[k]? = some w → w.name ≠ n) :
    intern_name g n = some (Symbol.non_terminal j) := by
  have := find_variable_first n g.variables j 0 v hj hname hfirst
  simp only [Nat.zero_add] at this
  simp [intern_name, this]

theorem intern_name_first_ext (g : InputGrammar) (n : String) (j : Nat)
    (hvar : ∀ v ∈ g.variables, v.name ≠ n)
    (hj : g.external_tokens[j]? = some (Rule.NamedSymbol n))
    (hfirst : ∀ k < j, g.external_tokens[k]? ≠ some (Rule.NamedSymbol n)) :
    intern_name g n = some (Symbol.external j) := by
  have h1 := find_variable_none n g.variables 0 hvar
  have h2 := find_external_first n g.external_tokens j 0 hj hfirst
  simp only [Nat.zero_add] at h2
  simp [intern_name, h1, h2]

theorem exists_first_var (n : String) :
    ∀ vs : List Variable, (∃ v ∈ vs, v.name = n) →
      ∃ (j : Nat) (v : Variable), vs[j]? = some v ∧ v.name = n ∧
        ∀ k < j, ∀ w : Variable, vs[k]? = some w → w.name ≠ n := by
  intro vs
  induction vs with
  | nil => intro h; simp at h
  | cons v0 rest ih =>
    intro h
    by_cases h0 : v0.name = n
    · exact ⟨0, v0, by simp, h0, by intro k hk; omega⟩
    · have hmem : ∃ v ∈ rest, v.name = n := by
        rcases h with ⟨v, hv, hn⟩
        rcases List.mem_cons.mp hv with h1 | h1
        · exact absurd hn (h1 ▸ h0)
        · exact ⟨v, h1, hn⟩
      rcases ih hmem with ⟨j, v, hj, hn, hfirst⟩
      refine ⟨j + 1, v, by simpa using hj, hn, ?_⟩
      intro k hk w hw
      cases k with
      | zero =>
        simp only [List.getElem?_cons_zero, Option.some.injEq] at hw
        subst hw; exact h0
      | succ k2 =>
        simp only [List.getElem?_cons_succ] at hw
        exact hfirst k2 (by omega) w hw

theorem exists_first_ext (n : String) :
    ∀ ts : List Rule, Rule.NamedSymbol n ∈ ts →
      ∃ j : Nat, ts[j]? = some (Rule.NamedSymbol n) ∧
        ∀ k < j, ts[k]? ≠ some (Rule.NamedSymbol n) := by
  intro ts
  induction ts with
  | nil => intro h; simp at h
  | cons t rest ih =>
    intro h
    by_cases h0 : t = Rule.NamedSymbol n
    · exact ⟨0, by simp [h0], by intro k hk; omega⟩
    · have hmem : Rule.NamedSymbol n ∈ rest := by
        rcases List.mem_cons.mp h with h1 | h1
        · exact absurd h1.symm h0
        · exact h1
      rcases ih hmem with ⟨j, hj, hfirst⟩
      refine ⟨j + 1, by simpa using hj, ?_⟩
      intro k hk
      cases k with
      | zero =>
        simp only [List.getElem?_cons_zero, ne_eq, Option.some.injEq]
        intro he; exact h0 he
      | succ k2 =>
        simp only [List.getElem?_cons_succ]
        exact hfirst k2 (by omega)

theorem intern_name_of_var_mem (g : InputGrammar) (n : String)
    (h : ∃ v ∈ g.variables, v.name = n) :
    ∃ (j : Nat) (v : Variable), g.variables[j]? = some v ∧ v.name = n ∧
      (∀ k < j, ∀ w : Variable, g.variables[k]? = some w → w.name ≠ n) ∧
      intern_name g n = some (Symbol.non_terminal j) := by
  rcases exists_first_var n g.variables h with ⟨j, v, hj, hn, hfirst⟩
  exact ⟨j, v, hj, hn, hfirst, intern_name_first_var g n j v hj hn hfirst⟩

theorem intern_name_of_ext_mem (g : InputGrammar) (n : String)
    (hvar : ∀ v ∈ g.variables, v.name ≠ n)
    (h : Rule.NamedSymbol n ∈ g.external_tokens) :
    ∃ j : Nat, g.external_tokens[j]? = some (Rule.NamedSymbol n) ∧
      (∀ k < j, g.external_tokens[k]? ≠ some (Rule.NamedSymbol n)) ∧
      intern_name g n = some (Symbol.external j) := by
  rcases exists_first_ext n g.external_tokens h with ⟨j, hj, hfirst⟩
  exact ⟨j, hj, hfirst, intern_name_first_ext g n j hvar hj hfirst⟩

/-- Interning a rule fails with `Error::undefined_symbol` at the first
unresolvable name in left-to-right order, and succeeds with the purely
structural substitution `intern_spec` when every name resolves. -/
theorem intern_rule_main (g : InputGrammar) :
    (∀ r : Rule,
      ((rule_names r).find? (fun n => (intern_name g n).isNone) = none →
        intern_rule g r = Except.ok (intern_spec g r)) ∧
      (∀ n, (rule_names r).find? (fun n => (intern_name g n).isNone) = some n →
        intern_rule g r = Except.error (Error.undefined_symbol n))) ∧
    (∀ es : List Rule,
      ((rule_names_list es).find? (fun n => (intern_name g n).isNone) = none →
        intern_rule_list g es = Except.ok (intern_spec_list g es)) ∧
      (∀ n, (rule_names_list es).find? (fun n => (intern_name g n).isNone) = some n →
        intern_rule_list g es = Except.error (Error.undefined_symbol n))) := by
  apply rule_mutual_ind
  · exact ⟨fun _ => rfl, fun n hn => by simp [rule_names, List.find?] at hn⟩
  · intro s
    exact ⟨fun _ => rfl, fun n hn => by simp [rule_names, List.find?] at hn⟩
  · intro s
    exact ⟨fun _ => rfl, fun n hn => by simp [rule_names, List.find?] at hn⟩
  · intro s
    cases h : intern_name g s with
    | some sym =>
      refine ⟨fun _ => by simp [intern_rule, intern_spec, h], fun n hn => ?_⟩
      simp [rule_names, List.find?, h] at hn
    | none =>
      refine ⟨fun hfind => ?_, fun n hn => ?_⟩
      · simp [rule_names, List.find?, h] at hfind
      · simp only [rule_names, List.find?, h, Option.isNone_none, Option.some.injEq] at hn
        subst hn
        simp [intern_rule, h]
  · intro s
    exact ⟨fun _ => rfl, fun n hn => by simp [rule_names, List.find?] at hn⟩
  · intro es ih
    refine ⟨fun hfind => ?_, fun n hn => ?_⟩
    · have h1 := ih.1 (by simpa [rule_names] using hfind)
      simp [intern_rule, intern_spec, h1]
    · have h1 := ih.2 n (by simpa [rule_names] using hn)
      simp [intern_rule, h1]
  · intro es ih
    refine ⟨fun hfind => ?_, fun n hn => ?_⟩
    · have h1 := ih.1 (by simpa [rule_names] using hfind)
      simp [intern_rule, intern_spec, h1]
    · have h1 := ih.2 n (by simpa [rule_names] using hn)
      simp [intern_rule, h1]
  · intro r ih
    refine ⟨fun hfind => ?_, fun n hn => ?_⟩
    · have h1 := ih.1 (by simpa [rule_names] using hfind)
      simp [intern_rule, intern_spec, h1]
    · have h1 := ih.2 n (by simpa [rule_names] using hn)
      simp [intern_rule, h1]
  · intro p r ih
    refine ⟨fun hfind => ?_, fun n hn => ?_⟩
    · have h1 := ih.1 (by simpa [rule_names] using hfind)
      simp [intern_rule, intern_spec, h1]
    · have h1 := ih.2 n (by simpa [rule_names] using hn)
      simp [intern_rule, h1]
  · exact ⟨fun _ => rfl, fun n hn => by simp [rule_names_list, List.find?] at hn⟩
  · intro r rs ihr ihrs
    refine ⟨fun hfind => ?_, fun n hn => ?_⟩
    · simp only [rule_names_list] at hfind
      rw [find?_append] at hfind
      cases hr : (rule_names r).find? (fun n => (intern_name g n).isNone) with
      | some m => simp [hr] at hfind
      | none =>
        simp only [hr] at hfind
        have h1 := ihr.1 hr
        have h2 := ihrs.1 hfind
        simp [intern_rule_list, intern_spec_list, h1, h2]
    · simp only [rule_names_list] at hn
      rw [find?_append] at hn
      cases hr : (rule_names r).find? (fun n => (intern_name g n).isNone) with
      | some m =>
        simp only [hr, Option.some.injEq] at hn
        subst hn
        have h1 := ihr.2 m hr
        simp [intern_rule_list, h1]
      | none =>
        simp only [hr] at hn
        have h1 := ihr.1 hr
        have h2 := ihrs.2 n hn
        simp [intern_rule_list, h1, h2]

/-- `intern_rule` depends on the grammar only through the resolver. -/
theorem intern_rule_congr (g1 g2 : InputGrammar)
    (h : ∀ n, intern_name g1 n = intern_name g2 n) :
    (∀ r, intern_rule g1 r = intern_rule g2 r) ∧
    (∀ es, intern_rule_list g1 es = intern_rule_list g2 es) := by
  apply rule_mutual_ind
  · rfl
  · intro s; rfl
  · intro s; rfl
  · intro s; simp [intern_rule, h s]
  · intro s; rfl
  · intro es ih; simp [intern_rule, ih]
  · intro es ih; simp [intern_rule, ih]
  · intro r ih; simp [intern_rule, ih]
  · intro p r ih; simp [intern_rule, ih]
  · rfl
  · intro r rs ihr ihrs; simp [intern_rule_list, ihr, ihrs]

theorem intern_variables_err (g : InputGrammar) :
    ∀ (vs : List Variable) (n : String),
      (variables_names vs).find? (fun m => (intern_name g m).isNone) = some n →
      intern_variables g vs = Except.error (Error.undefined_symbol n) := by
  intro vs
  induction vs with
  | nil => intro n hn; simp [variables_names, List.find?] at hn
  | cons v rest ih =>
    intro n hn
    simp only [variables_names] at hn
    rw [find?_append] at hn
    cases hr : (rule_names v.rule).find? (fun m => (intern_name g m).isNone) with
    | some m =>
      simp only [hr, Option.some.injEq] at hn
      subst hn
      have h1 := ((intern_rule_main g).1 v.rule).2 m hr
      simp [intern_variables, h1]
    | none =>
      simp only [hr] at hn
      have h1 := ((intern_rule_main g).1 v.rule).1 hr
      have h2 := ih n hn
      simp [intern_variables, h1, h2]

theorem intern_variables_ok (g : InputGrammar) :
    ∀ vs : List Variable,
      (variables_names vs).find? (fun m => (intern_name g m).isNone) = none →
      ∃ out, intern_variables g vs = Except.ok out := by
  intro vs
  induction vs with
  | nil => intro _; exact ⟨[], rfl⟩
  | cons v rest ih =>
    intro hn
    simp only [variables_names] at hn
    rw [find?_append] at hn
    cases hr : (rule_names v.rule).find? (fun m => (intern_name g m).isNone) with
    | some m => simp [hr] at hn
    | none =>
      simp only [hr] at hn
      have h1 := ((intern_rule_main g).1 v.rule).1 hr
      rcases ih hn with ⟨out, hout⟩
      exact ⟨{ name := v.name, kind := variable_type_for_name v.name,
               rule := intern_spec g v.rule } :: out,
             by simp [intern_variables, h1, hout]⟩

theorem intern_variables_out (g : InputGrammar) :
    ∀ (vs out : List Variable), intern_variables g vs = Except.ok out →
      out.length = vs.length ∧
      ∀ (j : Nat) (v : Variable), vs[j]? = some v →
        ∃ r2, intern_rule g v.rule = Except.ok r2 ∧
          out[j]? = some { name := v.name, kind := variable_type_for_name v.name, rule := r2 } := by
  intro vs
  induction vs with
  | nil =>
    intro out h
    simp only [intern_variables] at h
    cases h
    exact ⟨rfl, by intro j v hv; simp at hv⟩
  | cons v rest ih =>
    intro out h
    simp only [intern_variables] at h
    cases hr : intern_rule g v.rule with
    | error e => rw [hr] at h; cases h
    | ok r2 =>
      rw [hr] at h
      cases hrest : intern_variables g rest with
      | error e => rw [hrest] at h; cases h
      | ok rest2 =>
        rw [hrest] at h
        cases h
        rcases ih rest2 hrest with ⟨hlen, hidx⟩
        refine ⟨by simp [hlen], ?_⟩
        intro j w hw
        cases j with
        | zero =>
          simp only [List.getElem?_cons_zero, Option.some.injEq] at hw
          subst hw
          exact ⟨r2, hr, by simp⟩
        | succ j2 =>
          simp only [List.getElem?_cons_succ] at hw ⊢
          exact hidx j2 w hw

theorem intern_external_tokens_err (g : InputGrammar) :
    ∀ (ts : List Rule) (n : String),
      (rule_names_list ts).find? (fun m => (intern_name g m).isNone) = some n →
      intern_external_tokens g ts = Except.error (Error.undefined_symbol n) := by
  intro ts
  induction ts with
  | nil => intro n hn; simp [rule_names_list, List.find?] at hn
  | cons t rest ih =>
    intro n hn
    simp only [rule_names_list] at hn
    rw [find?_append] at hn
    cases hr : (rule_names t).find? (fun m => (intern_name g m).isNone) with
    | some m =>
      simp only [hr, Option.some.injEq] at hn
      subst hn
      have h1 := ((intern_rule_main g).1 t).2 m hr
      simp [intern_external_tokens, h1]
    | none =>
      simp only [hr] at hn
      have h1 := ((intern_rule_main g).1 t).1 hr
      have h2 := ih n hn
      cases t <;> simp [intern_external_tokens, h1, h2] at *

theorem intern_external_tokens_ok (g : InputGrammar) :
    ∀ ts : List Rule,
      (rule_names_list ts).find? (fun m => (intern_name g m).isNone) = none →
      ∃ out, intern_external_tokens g ts = Except.ok out := by
  intro ts
  induction ts with
  | nil => intro _; exact ⟨[], rfl⟩
  | cons t rest ih =>
    intro hn
    simp only [rule_names_list] at hn
    rw [find?_append] at hn
    cases hr : (rule_names t).find? (fun m => (intern_name g m).isNone) with
    | some m => simp [hr] at hn
    | none =>
      simp only [hr] at hn
      have h1 := ((intern_rule_main g).1 t).1 hr
      rcases ih hn with ⟨out, hout⟩
      cases t <;> (simp only [intern_external_tokens, h1, hout]; exact ⟨_, rfl⟩)

theorem intern_external_tokens_out (g : InputGrammar) :
    ∀ (ts : List Rule) (out : List Variable),
      intern_external_tokens g ts = Except.ok out →
      out.length = ts.length ∧
      ∀ (j : Nat) (t : Rule), ts[j]? = some t →
        ∃ r2, intern_rule g t = Except.ok r2 ∧
          out[j]? = some
            (match t with
             | Rule.NamedSymbol name =>
               { name := name, kind := variable_type_for_name name, rule := r2 }
             | _ => { name := "", kind := VariableType.Anonymous, rule := r2 }) := by
  intro ts
  induction ts with
  | nil =>
    intro out h
    simp only [intern_external_tokens] at h
    cases h
    exact ⟨rfl, by intro j t ht; simp at ht⟩
  | cons t rest ih =>
    intro out h
    simp only [intern_external_tokens] at h
    cases hr : intern_rule g t with
    | error e => rw [hr] at h; cases h
    | ok r2 =>
      rw [hr] at h
      cases hrest : intern_external_tokens g rest with
      | error e => rw [hrest] at h; cases h
      | ok rest2 =>
        rw [hrest] at h
        rcases ih rest2 hrest with ⟨hlen, hidx⟩
        cases t <;> cases h <;>
          (refine ⟨by simp [hlen], ?_⟩
           intro j w hw
           cases j with
           | zero =>
             simp only [List.getElem?_cons_zero, Option.some.injEq] at hw
             subst hw
             exact ⟨r2, hr, by simp⟩
           | succ j2 =>
             simp only [List.getElem?_cons_succ] at hw ⊢
             exact hidx j2 w hw)

theorem intern_names_err (g : InputGrammar) :
    ∀ (ns : List String) (n : String),
      ns.find? (fun m => (intern_name g m).isNone) = some n →
      intern_names g ns = Except.error (Error.undefined_symbol n) := by
  intro ns
  induction ns with
  | nil => intro n hn; simp [List.find?] at hn
  | cons m rest ih =>
    intro n hn
    cases hm : intern_name g m with
    | none =>
      simp only [List.find?, hm, Option.isNone_none, Option.some.injEq] at hn
      subst hn
      simp [intern_names, hm]
    | some s =>
      simp only [List.find?, hm, Option.isNone_some] at hn
      have h2 := ih n hn
      simp [intern_names, hm, h2]

theorem intern_names_ok (g : InputGrammar) :
    ∀ ns : List String,
      ns.find? (fun m => (intern_name g m).isNone) = none →
      ∃ out, intern_names g ns = Except.ok out := by
  intro ns
  induction ns with
  | nil => intro _; exact ⟨[], rfl⟩
  | cons m rest ih =>
    intro hn
    cases hm : intern_name g m with
    | none => simp [List.find?, hm] at hn
    | some s =>
      simp only [List.find?, hm, Option.isNone_some] at hn
      rcases ih hn with ⟨out, hout⟩
      exact ⟨s :: out, by simp [intern_names, hm, hout]⟩

theorem intern_conflicts_err (g : InputGrammar) :
    ∀ (cs : List (List String)) (n : String),
      cs.flatten.find? (fun m => (intern_name g m).isNone) = some n →
      intern_conflicts g cs = Except.error (Error.undefined_symbol n) := by
  intro cs
  induction cs with
  | nil => intro n hn; simp [List.find?] at hn
  | cons c rest ih =>
    intro n hn
    simp only [List.flatten_cons] at hn
    rw [find?_append] at hn
    cases hc : c.find? (fun m => (intern_name g m).isNone) with
    | some m =>
      simp only [hc, Option.some.injEq] at hn
      subst hn
      have h1 := intern_names_err g c m hc
      simp [intern_conflicts, h1]
    | none =>
      simp only [hc] at hn
      rcases intern_names_ok g c hc with ⟨out, hout⟩
      have h2 := ih n hn
      simp [intern_conflicts, hout, h2]

theorem intern_conflicts_ok (g : InputGrammar) :
    ∀ cs : List (List String),
      cs.flatten.find? (fun m => (intern_name g m).isNone) = none →
      ∃ out, intern_conflicts g cs = Except.ok out := by
  intro cs
  induction cs with
  | nil => intro _; exact ⟨[], rfl⟩
  | cons c rest ih =>
    intro hn
    simp only [List.flatten_cons] at hn
    rw [find?_append] at hn
    cases hc : c.find? (fun m => (intern_name g m).isNone) with
    | some m => simp [hc] at hn
    | none =>
      simp only [hc] at hn
      rcases intern_names_ok g c hc with ⟨out, hout⟩
      rcases ih hn with ⟨out2, hout2⟩
      exact ⟨out :: out2, by simp [intern_conflicts, hout, hout2]⟩

theorem intern_word_err (g : InputGrammar) :
    ∀ (wt : Option String) (n : String),
      (match wt with
       | some m => [m]
       | none => ([] : List String)).find? (fun m => (intern_name g m).isNone) = some n →
      intern_word g wt = Except.error (Error.undefined_symbol n) := by
  intro wt n hn
  cases wt with
  | none => simp [List.find?] at hn
  | some m =>
    cases hm : intern_name g m with
    | none =>
      simp only [List.find?, hm, Option.isNone_none, Option.some.injEq] at hn
      subst hn
      simp [intern_word, hm]
    | some s => simp [List.find?, hm] at hn

theorem intern_word_ok (g : InputGrammar) :
    ∀ wt : Option String,
      (match wt with
       | some m => [m]
       | none => ([] : List String)).find? (fun m => (intern_name g m).isNone) = none →
      ∃ out, intern_word g wt = Except.ok out := by
  intro wt hn
  cases wt with
  | none => exact ⟨none, rfl⟩
  | some m =>
    cases hm : intern_name g m with
    | none => simp [List.find?, hm] at hn
    | some s => exact ⟨some s, by simp [intern_word, hm]⟩

/-- When some hard-fail name is unresolvable, the interning pipeline
reports exactly the first one in processing order. -/
theorem core_err (g : InputGrammar) (n : String)
    (hn : first_undefined g = some n) :
    intern_symbols_core g = Except.error (Error.undefined_symbol n) := by
  unfold first_undefined hard_names at hn
  rw [find?_append] at hn
  cases hA : (variables_names g.variables).find? (fun m => (intern_name g m).isNone) with
  | some m =>
    simp only [hA, Option.some.injEq] at hn
    subst hn
    have h1 := intern_variables_err g g.variables m hA
    simp [intern_symbols_core, h1]
  | none =>
    simp only [hA] at hn
    rcases intern_variables_ok g g.variables hA with ⟨o1, ho1⟩
    rw [find?_append] at hn
    cases hB : (rule_names_list g.external_tokens).find? (fun m => (intern_name g m).isNone) with
    | some m =>
      simp only [hB, Option.some.injEq] at hn
      subst hn
      have h2 := intern_external_tokens_err g g.external_tokens m hB
      simp [intern_symbols_core, ho1, h2]
    | none =>
      simp only [hB] at hn
      rcases intern_external_tokens_ok g g.external_tokens hB with ⟨o2, ho2⟩
      rw [find?_append] at hn
      cases hC : (rule_names_list g.extra_tokens).find? (fun m => (intern_name g m).isNone) with
      | some m =>
        simp only [hC, Option.some.injEq] at hn
        subst hn
        have h3 := ((intern_rule_main g).2 g.extra_tokens).2 m hC
        simp [intern_symbols_core, ho1, ho2, h3]
      | none =>
        simp only [hC] at hn
        have h3 := ((intern_rule_main g).2 g.extra_tokens).1 hC
        rw [find?_append] at hn
        cases hD : g.supertype_symbols.find? (fun m => (intern_name g m).isNone) with
        | some m =>
          simp only [hD, Option.some.injEq] at hn
          subst hn
          have h4 := intern_names_err g g.supertype_symbols m hD
          simp [intern_symbols_core, ho1, ho2, h3, h4]
        | none =>
          simp only [hD] at hn
          rcases intern_names_ok g g.supertype_symbols hD with ⟨o4, ho4⟩
          rw [find?_append] at hn
          cases hE : g.expected_conflicts.flatten.find? (fun m => (intern_name g m).isNone) with
          | some m =>
            simp only [hE, Option.some.injEq] at hn
            subst hn
            have h5 := intern_conflicts_err g g.expected_conflicts m hE
            simp [intern_symbols_core, ho1, ho2, h3, ho4, h5]
          | none =>
            simp only [hE] at hn
            rcases intern_conflicts_ok g g.expected_conflicts hE with ⟨o5, ho5⟩
            have h6 := intern_word_err g g.word_token n hn
            simp [intern_symbols_core, ho1, ho2, h3, ho4, ho5, h6]

/-- When every hard-fail name resolves, the interning pipeline succeeds. -/
theorem core_ok (g : InputGrammar)
    (hn : first_undefined g = none) :
    ∃ G, intern_symbols_core g = Except.ok G := by
  unfold first_undefined hard_names at hn
  rw [find?_append] at hn
  cases hA : (variables_names g.variables).find? (fun m => (intern_name g m).isNone) with
  | some m => simp [hA] at hn
  | none =>
    simp only [hA] at hn
    rcases intern_variables_ok g g.variables hA with ⟨o1, ho1⟩
    rw [find?_append] at hn
    cases hB : (rule_names_list g.external_tokens).find? (fun m => (intern_name g m).isNone) with
    | some m => simp [hB] at hn
    | none =>
      simp only [hB] at hn
      rcases intern_external_tokens_ok g g.external_tokens hB with ⟨o2, ho2⟩
      rw [find?_append] at hn
      cases hC : (rule_names_list g.extra_tokens).find? (fun m => (intern_name g m).isNone) with
      | some m => simp [hC] at hn
      | none =>
        simp only [hC] at hn
        have h3 := ((intern_rule_main g).2 g.extra_tokens).1 hC
        rw [find?_append] at hn
        cases hD : g.supertype_symbols.find? (fun m => (intern_name g m).isNone) with
        | some m => simp [hD] at hn
        | none =>
          simp only [hD] at hn
          rcases intern_names_ok g g.supertype_symbols hD with ⟨o4, ho4⟩
          rw [find?_append] at hn
          cases hE : g.expected_conflicts.flatten.find? (fun m => (intern_name g m).isNone) with
          | some m => simp [hE] at hn
          | none =>
            simp only [hE] at hn
            rcases intern_conflicts_ok g g.expected_conflicts hE with ⟨o5, ho5⟩
            rcases intern_word_ok g g.word_token hn with ⟨o6, ho6⟩
            exact ⟨{ «variables» := o1, external_tokens := o2,
                     extra_tokens := intern_spec_list g g.extra_tokens,
                     expected_conflicts := o5,
                     variables_to_inline := intern_inline g g.variables_to_inline,
                     supertype_symbols := o4, word_token := o6 },
                   by simp [intern_symbols_core, ho1, ho2, h3, ho4, ho5, ho6]⟩

/-- Inversion of a successful run of the pipeline: every stage succeeded
with the corresponding component of the output. -/
theorem core_inv (g : InputGrammar) (G : InternedGrammar)
    (h : intern_symbols_core g = Except.ok G) :
    intern_variables g g.variables = Except.ok G.variables ∧
    intern_external_tokens g g.external_tokens = Except.ok G.external_tokens ∧
    intern_rule_list g g.extra_tokens = Except.ok G.extra_tokens ∧
    intern_names g g.supertype_symbols = Except.ok G.supertype_symbols ∧
    intern_conflicts g g.expected_conflicts = Except.ok G.expected_conflicts ∧
    G.variables_to_inline = intern_inline g g.variables_to_inline ∧
    intern_word g g.word_token = Except.ok G.word_token := by
  unfold intern_symbols_core at h
  cases h1 : intern_variables g g.variables with
  | error e => rw [h1] at h; cases h
  | ok o1 =>
    rw [h1] at h
    cases h2 : intern_external_tokens g g.external_tokens with
    | error e => rw [h2] at h; cases h
    | ok o2 =>
      rw [h2] at h
      cases h3 : intern_rule_list g g.extra_tokens with
      | error e => rw [h3] at h; cases h
      | ok o3 =>
        rw [h3] at h
        cases h4 : intern_names g g.supertype_symbols with
        | error e => rw [h4] at h; cases h
        | ok o4 =>
          rw [h4] at h
          cases h5 : intern_conflicts g g.expected_conflicts with
          | error e => rw [h5] at h; cases h
          | ok o5 =>
            rw [h5] at h
            cases h6 : intern_word g g.word_token with
            | error e => rw [h6] at h; cases h
            | ok o6 =>
              rw [h6] at h
              cases h
              exact ⟨rfl, rfl, rfl, rfl, rfl, rfl, rfl⟩

/-- Unfolding `intern_symbols` on a grammar with a non-empty variables
list. -/
theorem intern_symbols_eq_cons (g : InputGrammar) (v : Variable) (vs : List Variable)
    (hv : g.variables = v :: vs) :
    intern_symbols g =
      (if variable_type_for_name v.name = VariableType.Hidden then
        (Outcome.fails { message := "A grammar's start rule must be visible." }, [])
      else
        match intern_symbols_core g with
        | Except.error e => (Outcome.fails e, [])
        | Except.ok G => (Outcome.ok G, [G.supertype_symbols])) := by
  unfold intern_symbols
  rw [hv]

/-- Inversion of a successful run of `intern_symbols`: the variables list
is non-empty, the start rule is visible, the pipeline succeeded with the
returned grammar, and the supertype dump was emitted. -/
theorem intern_symbols_ok_inv (g : InputGrammar) (out : InternedGrammar)
    (ds : List (List Symbol)) (h : intern_symbols g = (Outcome.ok out, ds)) :
    intern_symbols_core g = Except.ok out ∧ ds = [out.supertype_symbols] ∧
    ∃ (v : Variable) (vs : List Variable), g.variables = v :: vs ∧
      variable_type_for_name v.name ≠ VariableType.Hidden := by
  cases hv : g.variables with
  | nil =>
    unfold intern_symbols at h
    rw [hv] at h
    simp at h
  | cons v vs =>
    rw [intern_symbols_eq_cons g v vs hv] at h
    by_cases hk : variable_type_for_name v.name = VariableType.Hidden
    · rw [if_pos hk] at h
      simp at h
    · rw [if_neg hk] at h
      cases hc : intern_symbols_core g with
      | error e => rw [hc] at h; simp at h
      | ok G =>
        rw [hc] at h
        simp only [Prod.mk.injEq] at h
        rcases h with ⟨hG, hds⟩
        cases hG
        exact ⟨rfl, hds.symm, v, vs, rfl, hk⟩

/-- The derived kind is `Hidden` exactly when the name starts with an
underscore. -/
theorem variable_type_hidden_iff (name : String) :
    variable_type_for_name name = VariableType.Hidden ↔ name.data.head? = some '_' := by
  unfold variable_type_for_name
  split <;> simp_all

/-- The inline loop is exactly `filterMap` of the resolver. -/
theorem intern_inline_eq_filterMap (g : InputGrammar) :
    ∀ ns : List String, intern_inline g ns = ns.filterMap (fun n => intern_name g n) := by
  intro ns
  induction ns with
  | nil => rfl
  | cons n rest ih =>
    cases hn : intern_name g n <;> simp [intern_inline, hn, ih, List.filterMap_cons]

/-- The pipeline errors exactly on the first unresolvable hard-fail name,
with that name in the error. -/
theorem core_error_iff (g : InputGrammar) (e : Error) :
    intern_symbols_core g = Except.error e ↔
      ∃ n, first_undefined g = some n ∧ e = Error.undefined_symbol n := by
  constructor
  · intro h
    cases hn : first_undefined g with
    | none =>
      rcases core_ok g hn with ⟨G, hG⟩
      rw [hG] at h
      cases h
    | some n =>
      have h2 := core_err g n hn
      rw [h2] at h
      exact ⟨n, rfl, by injection h with h3; exact h3.symm⟩
  · rintro ⟨n, hn, rfl⟩
    exact core_err g n hn

/-- Two input grammars agreeing on every collection except the inline
hints produce identical failure behavior. -/
theorem intern_symbols_fails_congr (g1 g2 : InputGrammar)
    (hv : g1.variables = g2.variables)
    (hx : g1.extra_tokens = g2.extra_tokens)
    (he : g1.external_tokens = g2.external_tokens)
    (hc : g1.expected_conflicts = g2.expected_conflicts)
    (hs : g1.supertype_symbols = g2.supertype_symbols)
    (hw : g1.word_token = g2.word_token) :
    ∀ e, (intern_symbols g1).1 = Outcome.fails e ↔ (intern_symbols g2).1 = Outcome.fails e := by
  have hn : ∀ n, intern_name g1 n = intern_name g2 n := by
    intro n
    unfold intern_name
    rw [hv, he]
  have hfu : first_undefined g1 = first_undefined g2 := by
    unfold first_undefined hard_names
    rw [hv, he, hx, hc, hs, hw]
    congr 1
    funext m
    rw [hn m]
  intro e
  cases hvv : g1.variables with
  | nil =>
    have hvv2 : g2.variables = [] := by rw [← hv]; exact hvv
    unfold intern_symbols
    rw [hvv, hvv2]
  | cons v vs =>
    have hvv2 : g2.variables = v :: vs := by rw [← hv]; exact hvv
    rw [intern_symbols_eq_cons g1 v vs hvv, intern_symbols_eq_cons g2 v vs hvv2]
    by_cases hk : variable_type_for_name v.name = VariableType.Hidden
    · rw [if_pos hk, if_pos hk]
    · rw [if_neg hk, if_neg hk]
      cases hc1 : intern_symbols_core g1 with
      | error e1 =>
        rcases (core_error_iff g1 e1).mp hc1 with ⟨n, hn1, rfl⟩
        have hn2 : first_undefined g2 = some n := by rw [← hfu]; exact hn1
        rw [core_err g2 n hn2]
      | ok G1 =>
        have hfu1 : first_undefined g1 = none := by
          cases hfs : first_undefined g1 with
          | none => rfl
          | some n =>
            rw [core_err g1 n hfs] at hc1
            cases hc1
        have hfu2 : first_undefined g2 = none := by rw [← hfu]; exact hfu1
        rcases core_ok g2 hfu2 with ⟨G2, hc2⟩
        rw [hc2]
        simp

deriving instance DecidableEq for Variable

deriving instance DecidableEq for InputGrammar

deriving instance DecidableEq for InternedGrammar

deriving instance DecidableEq for Outcome

/-- The structural substitution map is the identity on rules without
`NamedSymbol` nodes. -/
theorem intern_spec_id (g : InputGrammar) :
    (∀ r : Rule, rule_names r = [] → intern_spec g r = r) ∧
    (∀ es : List Rule, rule_names_list es = [] → intern_spec_list g es = es) := by
  apply rule_mutual_ind
  · intro _; rfl
  · intro s _; rfl
  · intro s _; rfl
  · intro s h; simp [rule_names] at h
  · intro s _; rfl
  · intro es ih h
    simp only [rule_names] at h
    simp [intern_spec, ih h]
  · intro es ih h
    simp only [rule_names] at h
    simp [intern_spec, ih h]
  · intro r ih h
    simp only [rule_names] at h
    simp [intern_spec, ih h]
  · intro p r ih h
    simp only [rule_names] at h
    simp [intern_spec, ih h]
  · intro _; rfl
  · intro r rs ihr ihrs h
    simp only [rule_names_list, List.append_eq_nil] at h
    simp [intern_spec_list, ihr h.1, ihrs h.2]

/-- An input grammar exercising interning of variable rules and of an
external token, used to instantiate the proved claims. -/
def ex_basic : InputGrammar :=
  { name := "lang",
    «variables» :=
      [{ name := "a", kind := VariableType.Named, rule := Rule.Str "x" },
       { name := "b", kind := VariableType.Named, rule := Rule.NamedSymbol "a" }],
    extra_tokens := [],
    external_tokens := [Rule.NamedSymbol "t"],
    expected_conflicts := [],
    variables_to_inline := [],
    supertype_symbols := [],
    word_token := none }

/-- The interned grammar produced from `ex_basic`. -/
def ex_basic_out : InternedGrammar :=
  { «variables» :=
      [{ name := "a", kind := VariableType.Named, rule := Rule.Str "x" },
       { name := "b", kind := VariableType.Named,
         rule := Rule.Symbol (Symbol.non_terminal 0) }],
    external_tokens :=
      [{ name := "t", kind := VariableType.Named,
         rule := Rule.Symbol (Symbol.external 0) }],
    extra_tokens := [],
    expected_conflicts := [],
    variables_to_inline := [],
    supertype_symbols := [],
    word_token := none }

/-- C1: for every `InputGrammar`, name resolution is index-faithful: the
name of `variables[i]` (at its first occurrence) resolves to
`Symbol::NonTerminal(i)`, and the name of `external_tokens[j]` (at its
first occurrence, when no variable shares that name) resolves to
`Symbol::External(j)`, so every resolved reference in a successful output
carries the declaration position of its target. -/
theorem claim1_index_fidelity (g : InputGrammar) (n : String) :
    (∀ (i : Nat) (v : Variable), g.variables[i]? = some v → v.name = n →
      (∀ k < i, ∀ w : Variable, g.variables[k]? = some w → w.name ≠ n) →
      intern_name g n = some (Symbol.non_terminal i)) ∧
    (∀ j : Nat, g.external_tokens[j]? = some (Rule.NamedSymbol n) →
      (∀ k < j, g.external_tokens[k]? ≠ some (Rule.NamedSymbol n)) →
      (∀ v ∈ g.variables, v.name ≠ n) →
      intern_name g n = some (Symbol.external j)) :=
  ⟨fun i v hv hn hf => intern_name_first_var g n i v hv hn hf,
   fun j hj hf hvar => intern_name_first_ext g n j hvar hj hf⟩

theorem claim1_index_fidelity_witness :
    intern_name ex_basic "b" = some (Symbol.non_terminal 1) ∧
    intern_name ex_basic "t" = some (Symbol.external 0) := by
  constructor
  · apply (claim1_index_fidelity ex_basic "b").1 1
      { name := "b", kind := VariableType.Named, rule := Rule.NamedSymbol "a" }
    · decide
    · decide
    · intro k hk w hw
      have hk0 : k = 0 := by omega
      subst hk0
      simp only [ex_basic, List.getElem?_cons_zero, Option.some.injEq] at hw
      subst hw
      decide
  · apply (claim1_index_fidelity ex_basic "t").2 0
    · decide
    · intro k hk
      omega
    · decide

/-- C2: when some variable bears a name, the resolver maps that name to
`Symbol::NonTerminal` at the first matching variable's index, searching
`variables` in declaration order, and never maps it to `Symbol::External`
— so a name shared by a variable and an external token always resolves to
the variable. -/
theorem claim2_variable_priority (g : InputGrammar) (n : String)
    (h : ∃ v ∈ g.variables, v.name = n) :
    (∃ (i : Nat) (v : Variable), intern_name g n = some (Symbol.non_terminal i) ∧
      g.variables[i]? = some v ∧ v.name = n ∧
      ∀ k < i, ∀ w : Variable, g.variables[k]? = some w → w.name ≠ n) ∧
    ∀ j : Nat, intern_name g n ≠ some (Symbol.external j) := by
  rcases intern_name_of_var_mem g n h with ⟨i, v, hi, hn2, hfirst, heq⟩
  refine ⟨⟨i, v, heq, hi, hn2, hfirst⟩, ?_⟩
  intro j hj
  rw [heq] at hj
  simp [Symbol.non_terminal, Symbol.external] at hj

/-- An input grammar in which the name `y` is both an internal variable
and an external token, mirroring the test
`test_interning_external_token_names`. -/
def ex_shared_name : InputGrammar :=
  { name := "lang",
    «variables» :=
      [{ name := "w", kind := VariableType.Named,
         rule := Rule.Choice [Rule.NamedSymbol "x", Rule.NamedSymbol "y", Rule.NamedSymbol "z"] },
       { name := "x", kind := VariableType.Named, rule := Rule.Str "a" },
       { name := "y", kind := VariableType.Named, rule := Rule.Str "b" }],
    extra_tokens := [],
    external_tokens := [Rule.NamedSymbol "y", Rule.NamedSymbol "z"],
    expected_conflicts := [],
    variables_to_inline := [],
    supertype_symbols := [],
    word_token := none }

theorem claim2_variable_priority_witness :
    intern_name ex_shared_name "y" = some (Symbol.non_terminal 2) ∧
    intern_name ex_shared_name "y" ≠ some (Symbol.external 0) := by
  have h := claim2_variable_priority ex_shared_name "y" (by decide)
  refine ⟨?_, h.2 0⟩
  rcases h.1 with ⟨i, v, heq, hi, hn2, hfirst⟩
  have hi2 : i = 2 := by
    by_contra hne
    have h01 : i = 0 ∨ i = 1 ∨ 3 ≤ i := by omega
    rcases h01 with h0 | h1 | h3
    · subst h0; simp [ex_shared_name] at hi; rw [← hi] at hn2; simp at hn2
    · subst h1; simp [ex_shared_name] at hi; rw [← hi] at hn2; simp at hn2
    · have : ex_shared_name.variables.length ≤ i := by
        simp [ex_shared_name]; omega
      rw [List.getElem?_eq_none this] at hi
      cases hi
  subst hi2
  exact heq

/-- C3: on a grammar with a visible start rule that contains at least one
unresolvable hard-fail name, `intern_symbols` returns exactly the error
for the first unresolvable name in processing order (variable rules, then
external-token rules, extra-token rules, supertype names, conflict names,
word token), produces no `InternedGrammar`, and emits nothing. -/
theorem claim3_first_hard_failure (g : InputGrammar) (v : Variable)
    (vs : List Variable) (n : String)
    (hv : g.variables = v :: vs)
    (hstart : variable_type_for_name v.name ≠ VariableType.Hidden)
    (hn : first_undefined g = some n) :
    intern_symbols g = (Outcome.fails (Error.undefined_symbol n), []) := by
  rw [intern_symbols_eq_cons g v vs hv, if_neg hstart, core_err g n hn]

/-- An input grammar with four unresolvable names in four different
hard-fail collections; `u1` (in a variable rule) comes first in processing
order. -/
def ex_two_undefined : InputGrammar :=
  { name := "lang",
    «variables» :=
      [{ name := "x", kind := VariableType.Named,
         rule := Rule.Seq [Rule.Str "k", Rule.NamedSymbol "u1"] }],
    extra_tokens := [Rule.NamedSymbol "u2"],
    external_tokens := [],
    expected_conflicts := [["u3"]],
    variables_to_inline := [],
    supertype_symbols := [],
    word_token := some "u4" }

theorem claim3_first_hard_failure_witness :
    intern_symbols ex_two_undefined = (Outcome.fails (Error.undefined_symbol "u1"), []) :=
  claim3_first_hard_failure ex_two_undefined
    { name := "x", kind := VariableType.Named,
      rule := Rule.Seq [Rule.Str "k", Rule.NamedSymbol "u1"] }
    [] "u1" (by decide) (by decide) (by decide)

/-- C4: a grammar whose first variable's name begins with an underscore
fails with the start-rule validation error, whatever the rest of the
grammar contains (so before any interning, and no `UndefinedSymbol` can be
reported); conversely the first variable of every successful output is not
`Hidden`. -/
theorem claim4_start_rule_guard :
    (∀ (g : InputGrammar) (v : Variable) (vs : List Variable),
      g.variables = v :: vs → v.name.data.head? = some '_' →
      intern_symbols g =
        (Outcome.fails { message := "A grammar's start rule must be visible." }, [])) ∧
    (∀ (g : InputGrammar) (out : InternedGrammar) (ds : List (List Symbol)),
      intern_symbols g = (Outcome.ok out, ds) →
      ∃ (w : Variable) (ws : List Variable), out.variables = w :: ws ∧
        w.kind ≠ VariableType.Hidden) := by
  constructor
  · intro g v vs hv hu
    have hk : variable_type_for_name v.name = VariableType.Hidden :=
      (variable_type_hidden_iff v.name).mpr hu
    rw [intern_symbols_eq_cons g v vs hv, if_pos hk]
  · intro g out ds h
    rcases intern_symbols_ok_inv g out ds h with ⟨hcore, hds, v, vs, hv, hk⟩
    rcases core_inv g out hcore with ⟨hvars, _⟩
    rw [hv] at hvars
    rcases (intern_variables_out g (v :: vs) out.variables hvars).2 0 v (by simp)
      with ⟨r2, hr2, h0⟩
    cases houtv : out.variables with
    | nil => rw [houtv] at h0; simp at h0
    | cons w ws =>
      rw [houtv] at h0
      simp only [List.getElem?_cons_zero, Option.some.injEq] at h0
      refine ⟨w, ws, rfl, ?_⟩
      rw [h0]
      exact hk

/-- An input grammar whose first variable is hidden and whose rules also
contain an undefined name; the start-rule check still wins. -/
def ex_hidden_start : InputGrammar :=
  { name := "lang",
    «variables» :=
      [{ name := "_a", kind := VariableType.Hidden, rule := Rule.NamedSymbol "undefined" }],
    extra_tokens := [],
    external_tokens := [],
    expected_conflicts := [],
    variables_to_inline := [],
    supertype_symbols := [],
    word_token := none }

theorem claim4_start_rule_guard_witness :
    intern_symbols ex_hidden_start =
      (Outcome.fails { message := "A grammar's start rule must be visible." }, []) ∧
    ∃ (w : Variable) (ws : List Variable), ex_basic_out.variables = w :: ws ∧
      w.kind ≠ VariableType.Hidden :=
  ⟨claim4_start_rule_guard.1 ex_hidden_start
    { name := "_a", kind := VariableType.Hidden, rule := Rule.NamedSymbol "undefined" }
    [] (by decide) (by decide),
   claim4_start_rule_guard.2 ex_basic ex_basic_out [[]] (by decide)⟩

/-- C5: rule interning is structure-preserving: a successful result is
exactly the structural map that keeps tree shape, child order and arity,
`Repeat` and `Metadata` wrappers (with params unchanged) and every leaf
payload, replacing only `NamedSymbol` nodes by resolved `Symbol` nodes;
in particular on a rule without `NamedSymbol` nodes interning succeeds and
returns the input unchanged. -/
theorem claim5_structure_preserving (g : InputGrammar) :
    (∀ r r2 : Rule, intern_rule g r = Except.ok r2 → r2 = intern_spec g r) ∧
    (∀ r : Rule, rule_names r = [] → intern_rule g r = Except.ok r) := by
  constructor
  · intro r r2 h
    cases hf : (rule_names r).find? (fun n => (intern_name g n).isNone) with
    | some n =>
      rw [((intern_rule_main g).1 r).2 n hf] at h
      cases h
    | none =>
      rw [((intern_rule_main g).1 r).1 hf] at h
      injection h with h2
      exact h2.symm
  · intro r hr
    have hf : (rule_names r).find? (fun n => (intern_name g n).isNone) = none := by
      rw [hr]; rfl
    have h1 := ((intern_rule_main g).1 r).1 hf
    rw [(intern_spec_id g).1 r hr] at h1
    exact h1

theorem claim5_structure_preserving_witness :
    Rule.Symbol (Symbol.non_terminal 0) = intern_spec ex_basic (Rule.NamedSymbol "a") ∧
    intern_rule ex_basic
        (Rule.Choice [Rule.Str "p", Rule.Seq [Rule.Blank],
          Rule.Repeat (Rule.Metadata { value := 7 } (Rule.Pattern "q"))]) =
      Except.ok
        (Rule.Choice [Rule.Str "p", Rule.Seq [Rule.Blank],
          Rule.Repeat (Rule.Metadata { value := 7 } (Rule.Pattern "q"))]) :=
  ⟨(claim5_structure_preserving ex_basic).1 (Rule.NamedSymbol "a")
      (Rule.Symbol (Symbol.non_terminal 0)) rfl,
   (claim5_structure_preserving ex_basic).2
      (Rule.Choice [Rule.Str "p", Rule.Seq [Rule.Blank],
        Rule.Repeat (Rule.Metadata { value := 7 } (Rule.Pattern "q"))]) (by decide)⟩

/-- C6: in every successful run, the output `external_tokens` list has one
entry per input entry in the same order; an input entry `NamedSymbol(name)`
yields the variable `{name, kind derived from name, rule = interned entry}`
(the interned entry being the resolved symbol for `name`), and any other
entry yields `{name = "", kind = Anonymous, rule = interned entry}`. -/
theorem claim6_external_token_output (g : InputGrammar) (out : InternedGrammar)
    (ds : List (List Symbol)) (h : intern_symbols g = (Outcome.ok out, ds)) :
    out.external_tokens.length = g.external_tokens.length ∧
    ∀ (j : Nat) (t : Rule), g.external_tokens[j]? = some t →
      ∃ r2 : Rule, intern_rule g t = Except.ok r2 ∧
        out.external_tokens[j]? = some
          (match t with
           | Rule.NamedSymbol name =>
             { name := name, kind := variable_type_for_name name, rule := r2 }
           | _ => { name := "", kind := VariableType.Anonymous, rule := r2 }) ∧
        ∀ name, t = Rule.NamedSymbol name →
          ∃ s, intern_name g name = some s ∧ r2 = Rule.Symbol s := by
  rcases intern_symbols_ok_inv g out ds h with ⟨hcore, _, _⟩
  rcases core_inv g out hcore with ⟨_, hext, _⟩
  rcases intern_external_tokens_out g g.external_tokens out.external_tokens hext
    with ⟨hlen, hidx⟩
  refine ⟨hlen, ?_⟩
  intro j t ht
  rcases hidx j t ht with ⟨r2, hr2, hout⟩
  refine ⟨r2, hr2, hout, ?_⟩
  intro name hname
  subst hname
  cases hs : intern_name g name with
  | none => simp [intern_rule, hs] at hr2
  | some s =>
    simp only [intern_rule, hs, Except.ok.injEq] at hr2
    exact ⟨s, rfl, hr2.symm⟩

/-- The interned grammar produced from `ex_shared_name`; the external
token `y` refers back to the internal variable's index, `z` to its own
external index. -/
def ex_shared_name_out : InternedGrammar :=
  { «variables» :=
      [{ name := "w", kind := VariableType.Named,
         rule := Rule.Choice [Rule.Symbol (Symbol.non_terminal 1),
           Rule.Symbol (Symbol.non_terminal 2), Rule.Symbol (Symbol.external 1)] },
       { name := "x", kind := VariableType.Named, rule := Rule.Str "a" },
       { name := "y", kind := VariableType.Named, rule := Rule.Str "b" }],
    external_tokens :=
      [{ name := "y", kind := VariableType.Named,
         rule := Rule.Symbol (Symbol.non_terminal 2) },
       { name := "z", kind := VariableType.Named,
         rule := Rule.Symbol (Symbol.external 1) }],
    extra_tokens := [],
    expected_conflicts := [],
    variables_to_inline := [],
    supertype_symbols := [],
    word_token := none }

theorem claim6_external_token_output_witness :
    ex_shared_name_out.external_tokens.length = ex_shared_name.external_tokens.length :=
  (claim6_external_token_output ex_shared_name ex_shared_name_out [[]] (by decide)).1

/-- C7: inline hints soft-fail: the output `variables_to_inline` is exactly
the `filterMap` of the resolver over the input names (resolvable names in
their original relative order, unresolvable names silently dropped), and
replacing the `variables_to_inline` list by any other list never changes
which error, if any, the pass reports. -/
theorem claim7_inline_soft_fail (g : InputGrammar) :
    (∀ (out : InternedGrammar) (ds : List (List Symbol)),
      intern_symbols g = (Outcome.ok out, ds) →
      out.variables_to_inline =
        g.variables_to_inline.filterMap (fun n => intern_name g n)) ∧
    (∀ (l : List String) (e : Error),
      (intern_symbols { g with variables_to_inline := l }).1 = Outcome.fails e ↔
        (intern_symbols g).1 = Outcome.fails e) := by
  constructor
  · intro out ds h
    rcases intern_symbols_ok_inv g out ds h with ⟨hcore, _, _⟩
    rcases core_inv g out hcore with ⟨_, _, _, _, _, hinl, _⟩
    rw [hinl, intern_inline_eq_filterMap]
  · intro l e
    exact intern_symbols_fails_congr { g with variables_to_inline := l } g
      rfl rfl rfl rfl rfl rfl e

/-- `ex_basic` with one resolvable and one unresolvable inline hint,
mirroring the spec's soft-fail test. -/
def ex_inline : InputGrammar :=
  { name := "lang",
    «variables» :=
      [{ name := "a", kind := VariableType.Named, rule := Rule.Str "x" },
       { name := "b", kind := VariableType.Named, rule := Rule.NamedSymbol "a" }],
    extra_tokens := [],
    external_tokens := [Rule.NamedSymbol "t"],
    expected_conflicts := [],
    variables_to_inline := ["a", "nope"],
    supertype_symbols := [],
    word_token := none }

/-- The interned grammar produced from `ex_inline`: only the resolvable
inline hint survives. -/
def ex_inline_out : InternedGrammar :=
  { «variables» :=
      [{ name := "a", kind := VariableType.Named, rule := Rule.Str "x" },
       { name := "b", kind := VariableType.Named,
         rule := Rule.Symbol (Symbol.non_terminal 0) }],
    external_tokens :=
      [{ name := "t", kind := VariableType.Named,
         rule := Rule.Symbol (Symbol.external 0) }],
    extra_tokens := [],
    expected_conflicts := [],
    variables_to_inline := [Symbol.non_terminal 0],
    supertype_symbols := [],
    word_token := none }

theorem claim7_inline_soft_fail_witness :
    ex_inline_out.variables_to_inline =
      ex_inline.variables_to_inline.filterMap (fun n => intern_name ex_inline n) ∧
    ((intern_symbols { ex_inline with variables_to_inline := ["nope"] }).1 =
        Outcome.fails (Error.undefined_symbol "nope") ↔
      (intern_symbols ex_inline).1 = Outcome.fails (Error.undefined_symbol "nope")) :=
  ⟨(claim7_inline_soft_fail ex_inline).1 ex_inline_out [[]] (by decide),
   (claim7_inline_soft_fail ex_inline).2 ["nope"] (Error.undefined_symbol "nope")⟩

/-- A valid input grammar with one supertype symbol; interning it succeeds
and reaches the diagnostic dump. -/
def ex_supertype : InputGrammar :=
  { name := "lang",
    «variables» :=
      [{ name := "a", kind := VariableType.Named, rule := Rule.Str "x" }],
    extra_tokens := [],
    external_tokens := [],
    expected_conflicts := [],
    variables_to_inline := [],
    supertype_symbols := ["a"],
    word_token := none }

/-- C8 fails on the code: on every successful run `intern_symbols` reaches
`eprintln!("supertype_symbols: ...")` (line 76) and dumps the resolved
supertype symbols to stderr, so the pass does have an observable effect
beyond its return value; here the dump payload produced for `ex_supertype`
is non-empty. -/
theorem claim8_supertype_dump_emitted :
    (intern_symbols ex_supertype).2 = [[Symbol.non_terminal 0]] ∧
    (intern_symbols ex_supertype).2 ≠ [] := by
  exact ⟨by decide, by decide⟩

/-- C9: `intern_symbols` panics (from the unguarded `grammar.variables[0]`
index at line 9) exactly on the grammars whose variables list is empty;
on those it returns no error value at all. -/
theorem claim9_empty_variables_panics (g : InputGrammar) :
    (intern_symbols g).1 = Outcome.panics ↔ g.variables = [] := by
  cases hv : g.variables with
  | nil =>
    unfold intern_symbols
    rw [hv]
    simp
  | cons v vs =>
    rw [intern_symbols_eq_cons g v vs hv]
    by_cases hk : variable_type_for_name v.name = VariableType.Hidden
    · rw [if_pos hk]
      simp
    · rw [if_neg hk]
      cases hc : intern_symbols_core g with
      | error e => simp
      | ok G => simp

/-- An input grammar with an empty variables list, on which the unguarded
`grammar.variables[0]` index panics. -/
def ex_empty : InputGrammar :=
  { name := "lang",
    «variables» := [],
    extra_tokens := [],
    external_tokens := [],
    expected_conflicts := [],
    variables_to_inline := [],
    supertype_symbols := [],
    word_token := none }

theorem claim9_empty_variables_panics_witness :
    (intern_symbols ex_empty).1 = Outcome.panics :=
  (claim9_empty_variables_panics ex_empty).mpr (by decide)

/-- A grammar with a duplicate-named external token entry and another
entry shadowed by an internal variable. -/
def ex_dup_external : InputGrammar :=
  { name := "lang",
    «variables» :=
      [{ name := "y", kind := VariableType.Named, rule := Rule.Str "b" }],
    extra_tokens := [],
    external_tokens := [Rule.NamedSymbol "z", Rule.NamedSymbol "z", Rule.NamedSymbol "y"],
    expected_conflicts := [],
    variables_to_inline := [],
    supertype_symbols := [],
    word_token := none }

/-- C10: an external-token entry that is `NamedSymbol(name)` always
resolves (so its interning can never fail with `UndefinedSymbol`): to
`Symbol::NonTerminal` at a variable's index when a variable bears that
name, and otherwise to `Symbol::External(j)` where `j` is the index of the
first external entry with that name — so a later duplicate-named entry
resolves to the earlier entry's index. -/
theorem claim10_external_entry_resolves (g : InputGrammar) (name : String)
    (hmem : Rule.NamedSymbol name ∈ g.external_tokens) :
    ∃ s : Symbol, intern_name g name = some s ∧
      intern_rule g (Rule.NamedSymbol name) = Except.ok (Rule.Symbol s) ∧
      ((∃ v ∈ g.variables, v.name = name) →
        ∃ (i : Nat) (v : Variable), s = Symbol.non_terminal i ∧
          g.variables[i]? = some v ∧ v.name = name) ∧
      ((∀ v ∈ g.variables, v.name ≠ name) →
        ∃ j : Nat, s = Symbol.external j ∧
          g.external_tokens[j]? = some (Rule.NamedSymbol name) ∧
          ∀ k < j, g.external_tokens[k]? ≠ some (Rule.NamedSymbol name)) := by
  by_cases hv : ∃ v ∈ g.variables, v.name = name
  · rcases intern_name_of_var_mem g name hv with ⟨i, v, hi, hn, hfirst, heq⟩
    refine ⟨Symbol.non_terminal i, heq, by simp [intern_rule, heq], ?_, ?_⟩
    · intro _
      exact ⟨i, v, rfl, hi, hn⟩
    · intro hcontra
      rcases hv with ⟨v2, hv2, hn2⟩
      exact absurd hn2 (hcontra v2 hv2)
  · push_neg at hv
    rcases intern_name_of_ext_mem g name hv hmem with ⟨j, hj, hfirst, heq⟩
    refine ⟨Symbol.external j, heq, by simp [intern_rule, heq], ?_,
      fun _ => ⟨j, rfl, hj, hfirst⟩⟩
    intro hcontra
    rcases hcontra with ⟨v2, hv2, hn2⟩
    exact absurd hn2 (hv v2 hv2)

theorem claim10_external_entry_resolves_witness :
    (∃ s : Symbol, intern_name ex_dup_external "z" = some s ∧
      intern_rule ex_dup_external (Rule.NamedSymbol "z") = Except.ok (Rule.Symbol s) ∧
      ((∃ v ∈ ex_dup_external.variables, v.name = "z") →
        ∃ (i : Nat) (v : Variable), s = Symbol.non_terminal i ∧
          ex_dup_external.variables[i]? = some v ∧ v.name = "z") ∧
      ((∀ v ∈ ex_dup_external.variables, v.name ≠ "z") →
        ∃ j : Nat, s = Symbol.external j ∧
          ex_dup_external.external_tokens[j]? = some (Rule.NamedSymbol "z") ∧
          ∀ k < j, ex_dup_external.external_tokens[k]? ≠ some (Rule.NamedSymbol "z"))) ∧
    intern_name ex_dup_external "y" = some (Symbol.non_terminal 0) ∧
    intern_name ex_dup_external "z" = some (Symbol.external 0) := by
  refine ⟨claim10_external_entry_resolves ex_dup_external "z" (by decide), by decide, by decide⟩

end InternSymbols
